import Mathlib

/-!
Verification of the DynamoSearch indexing and ranking engine.

This file gives a shallow embedding, in Lean 4, of the core of the
`dynamosearch` package (`packages/dynamosearch/src/index.ts` and the
analyzer pipeline of `analyzers/Analyzer.ts`), and proves or refutes the
frozen specification claims about it.

Modelling conventions:
* JavaScript strings manipulated character by character (the key codec)
  are modelled as `List Char`; `String.replaceAll` with a single-character
  pattern is modelled as the character-by-character rewrite it performs.
* JavaScript numbers holding integer counters are modelled as `Nat`/`Int`;
  the BM25 arithmetic (IEEE doubles in the source) is modelled over `ℝ`.
* A JavaScript `Map` used only through `m.get(k) ?? 0` / `m.set(k, v)` is
  modelled as a total function with default `0`.
* DynamoDB itself is modelled as the list of index records it holds; a
  `Query` against the keys index is the corresponding filter, and the md5
  key hash is an abstract parameter `keyHash`.  I/O pagination,
  `ConsumedCapacity` bookkeeping and batch chunking are modelled
  explicitly where a claim depends on them.
-/

namespace DynamoSearch

/-! ## Key codec (`encodeKeys` / `decodeKeys`, index.ts lines 52-82)

A key part is one DynamoDB attribute value object such as `{S: "101"}`:
`Object.keys(part)[0]` is its type-tag name and `Object.values(part)[0]`
its string payload.  We model a part as a pair of character lists
`(name, value)`. -/

/-- One step of `value.replaceAll(escape, escape + escape)` for a
single-character pattern: every escape character is doubled. -/
def escapeEsc (esc : Char) : List Char → List Char
  | [] => []
  | c :: cs => if c = esc then esc :: esc :: escapeEsc esc cs else c :: escapeEsc esc cs

/-- One step of `value.replaceAll(delimiter, escape + delimiter)`: every
delimiter character is prefixed with the escape character. -/
def escapeDelim (delim esc : Char) : List Char → List Char
  | [] => []
  | c :: cs => if c = delim then esc :: delim :: escapeDelim delim esc cs else c :: escapeDelim delim esc cs

/-- The value encoding used by `encodeKeys`:
`value.replaceAll(escape, escape+escape).replaceAll(delimiter, escape+delimiter)`. -/
def escapeValue (delim esc : Char) (v : List Char) : List Char :=
  escapeDelim delim esc (escapeEsc esc v)

/-- `encodeKeys` (index.ts lines 52-60): concatenate each part's
attribute name followed by its escaped value, with `delim` between
consecutive parts. -/
def encodeKeys (delim esc : Char) : List (List Char × List Char) → List Char
  | [] => []
  | [p] => p.1 ++ escapeValue delim esc p.2
  | p :: q :: rest => p.1 ++ escapeValue delim esc p.2 ++ delim :: encodeKeys delim esc (q :: rest)

/-- The character scan of `decodeKeys` (index.ts lines 63-79): an escape
character that is not the last character makes the following character
literal, an unescaped delimiter closes the current field, and the final
field is always pushed. `cur` is the accumulator variable `current`. -/
def decodeScan (delim esc : Char) : List Char → List Char → List (List Char)
  | [], cur => [cur]
  | [c], cur => if c = delim then [cur, []] else [cur ++ [c]]
  | c :: d :: rest, cur =>
    if c = esc then decodeScan delim esc rest (cur ++ [d])
    else if c = delim then cur :: decodeScan delim esc (d :: rest) []
    else decodeScan delim esc (d :: rest) (cur ++ [c])

/-- `decodeKeys` (index.ts lines 62-82): scan the string into fields, then
split each field into its first character (the attribute name) and the
remainder (the value), as `key.slice(0, 1)` / `key.slice(1)` do. -/
def decodeKeys (delim esc : Char) (s : List Char) : List (List Char × List Char) :=
  (decodeScan delim esc s []).map (fun k => (k.take 1, k.drop 1))

theorem escapeEsc_eq_nil_iff (esc : Char) (v : List Char) :
    escapeEsc esc v = [] ↔ v = [] := by
  cases v with
  | nil => simp [escapeEsc]
  | cons c cs =>
    simp only [escapeEsc]
    split <;> simp

theorem escapeDelim_eq_nil_iff (delim esc : Char) (v : List Char) :
    escapeDelim delim esc v = [] ↔ v = [] := by
  cases v with
  | nil => simp [escapeDelim]
  | cons c cs =>
    simp only [escapeDelim]
    split <;> simp

theorem escapeValue_eq_nil_iff (delim esc : Char) (v : List Char) :
    escapeValue delim esc v = [] ↔ v = [] := by
  rw [escapeValue, escapeDelim_eq_nil_iff, escapeEsc_eq_nil_iff]

/-- Scanning an escaped value consumes it verbatim into the current field. -/
theorem decodeScan_escapeValue (delim esc : Char) (hde : delim ≠ esc)
    (v : List Char) : ∀ s cur,
    decodeScan delim esc (escapeValue delim esc v ++ s) cur = decodeScan delim esc s (cur ++ v) := by
  have hed : esc ≠ delim := fun h => hde h.symm
  induction v with
  | nil => intro s cur; simp [escapeValue, escapeEsc, escapeDelim]
  | cons c cs ih =>
    intro s cur
    by_cases hce : c = esc
    · have hesc : escapeValue delim esc (c :: cs) = esc :: esc :: escapeValue delim esc cs := by
        simp only [escapeValue, escapeEsc, if_pos hce, escapeDelim, if_neg hed]
      rw [hesc, List.cons_append, List.cons_append]
      rw [show decodeScan delim esc (esc :: esc :: (escapeValue delim esc cs ++ s)) cur =
          decodeScan delim esc (escapeValue delim esc cs ++ s) (cur ++ [esc]) by
        simp [decodeScan]]
      rw [ih]
      simp [hce]
    · by_cases hcd : c = delim
      · have hesc : escapeValue delim esc (c :: cs) = esc :: delim :: escapeValue delim esc cs := by
          simp only [escapeValue, escapeEsc, if_neg hce, escapeDelim, if_pos hcd, if_neg hed]
        rw [hesc, List.cons_append, List.cons_append]
        rw [show decodeScan delim esc (esc :: delim :: (escapeValue delim esc cs ++ s)) cur =
            decodeScan delim esc (escapeValue delim esc cs ++ s) (cur ++ [delim]) by
          simp [decodeScan]]
        rw [ih]
        simp [hcd]
      · have hesc : escapeValue delim esc (c :: cs) = c :: escapeValue delim esc cs := by
          simp only [escapeValue, escapeEsc, if_neg hce, escapeDelim, if_neg hcd]
        rw [hesc]
        cases htail : escapeValue delim esc cs ++ s with
        | nil =>
          have hcs : cs = [] := by
            have := (List.append_eq_nil.mp htail).1
            exact (escapeValue_eq_nil_iff delim esc cs).mp this
          have hs : s = [] := (List.append_eq_nil.mp htail).2
          subst hcs; subst hs
          simp [decodeScan, if_neg hcd, escapeValue, escapeEsc, escapeDelim]
        | cons d rest =>
          rw [List.cons_append, htail]
          rw [show decodeScan delim esc (c :: d :: rest) cur =
              decodeScan delim esc (d :: rest) (cur ++ [c]) by
            simp [decodeScan, if_neg hce, if_neg hcd]]
          rw [← htail, ih]
          simp

/-- Scanning an ordinary character (neither delimiter nor escape) appends
it to the current field. -/
theorem decodeScan_ordinary (delim esc : Char) (n : Char) (hnd : n ≠ delim)
    (hne : n ≠ esc) (s cur : List Char) :
    decodeScan delim esc (n :: s) cur = decodeScan delim esc s (cur ++ [n]) := by
  cases s with
  | nil => simp [decodeScan, if_neg hnd]
  | cons d rest => simp [decodeScan, if_neg hnd, if_neg hne]

/-- Scanning the encoding of a non-empty part list recovers each part as
the field `name ++ value`. -/
theorem decodeScan_encodeKeys (delim esc : Char) (hde : delim ≠ esc) :
    ∀ parts : List (List Char × List Char), parts ≠ [] →
    (∀ p ∈ parts, ∃ c : Char, p.1 = [c] ∧ c ≠ delim ∧ c ≠ esc) →
    decodeScan delim esc (encodeKeys delim esc parts) [] =
      parts.map (fun p => p.1 ++ p.2)
  | [], hne, _ => absurd rfl hne
  | [p], _, hnames => by
    obtain ⟨c, hp1, hcd, hce⟩ := hnames p (List.mem_singleton.mpr rfl)
    simp only [encodeKeys, hp1, List.cons_append, List.nil_append]
    rw [show (c :: escapeValue delim esc p.2 : List Char) =
        [c] ++ escapeValue delim esc p.2 from rfl]
    rw [show ([c] ++ escapeValue delim esc p.2 : List Char) =
        [c] ++ (escapeValue delim esc p.2 ++ []) by simp]
    rw [List.singleton_append, decodeScan_ordinary delim esc c hcd hce,
      decodeScan_escapeValue delim esc hde]
    simp [decodeScan, hp1]
  | p :: q :: rest, _, hnames => by
    obtain ⟨c, hp1, hcd, hce⟩ := hnames p (List.mem_cons_self _ _)
    obtain ⟨c', hq1, _, _⟩ := hnames q (List.mem_cons_of_mem _ (List.mem_cons_self _ _))
    have hnonnil : encodeKeys delim esc (q :: rest) ≠ [] := by
      cases rest with
      | nil => simp [encodeKeys, hq1]
      | cons r rs => simp [encodeKeys, hq1]
    simp only [encodeKeys, hp1, List.cons_append, List.nil_append]
    rw [show (c :: (escapeValue delim esc p.2 ++ delim :: encodeKeys delim esc (q :: rest)) :
        List Char) = c :: (escapeValue delim esc p.2 ++ (delim :: encodeKeys delim esc (q :: rest))) from rfl]
    rw [show (c :: (escapeValue delim esc p.2 ++ (delim :: encodeKeys delim esc (q :: rest))) :
        List Char) = [c] ++ (escapeValue delim esc p.2 ++ (delim :: encodeKeys delim esc (q :: rest))) from rfl]
    rw [List.singleton_append, decodeScan_ordinary delim esc c hcd hce,
      decodeScan_escapeValue delim esc hde]
    cases henc : encodeKeys delim esc (q :: rest) with
    | nil => exact absurd henc hnonnil
    | cons e es =>
      simp only [decodeScan, if_neg hde, if_pos rfl, List.nil_append]
      rw [← henc,
        decodeScan_encodeKeys delim esc hde (q :: rest) (by simp)
          (fun r hr => hnames r (List.mem_cons_of_mem _ hr))]
      simp [hp1]

/-- Claim C2: for every non-empty list of key parts whose attribute names
are single characters distinct from the delimiter and escape characters
(as the DynamoDB type tags `S`/`N`/`B` are), and arbitrary values — in
particular values containing the delimiter or the escape character —
decoding the encoded key string returns exactly the original key parts. -/
theorem decode_encode_roundtrip (delim esc : Char) (hde : delim ≠ esc)
    (parts : List (List Char × List Char)) (hne : parts ≠ [])
    (hnames : ∀ p ∈ parts, ∃ c : Char, p.1 = [c] ∧ c ≠ delim ∧ c ≠ esc) :
    decodeKeys delim esc (encodeKeys delim esc parts) = parts := by
  rw [decodeKeys, decodeScan_encodeKeys delim esc hde parts hne hnames, List.map_map]
  apply List.map_congr_left ?_ |>.trans (List.map_id parts)
  intro p hp
  obtain ⟨c, hp1, _, _⟩ := hnames p hp
  cases p with
  | mk a b =>
    simp only at hp1
    simp [Function.comp, hp1]

/-- Witness for C2 at a concrete input: two key parts whose values
contain the delimiter `;` and the escape character, with the default
delimiter and escape characters of the source. -/
theorem decode_encode_roundtrip_witness :
    decodeKeys ';' '\\'
      (encodeKeys ';' '\\'
        [(['S'], ['a', ';', 'b']), (['N'], ['\\', ';'])]) =
      [(['S'], ['a', ';', 'b']), (['N'], ['\\', ';'])] := by
  apply decode_encode_roundtrip ';' '\\' (by decide)
  · simp
  · intro p hp
    simp only [List.mem_cons, List.not_mem_nil, or_false] at hp
    rcases hp with h | h <;> subst h
    · exact ⟨'S', rfl, by decide, by decide⟩
    · exact ⟨'N', rfl, by decide, by decide⟩

/-! ## Text analyzer (`analyzers/Analyzer.ts`)

A token carries at minimum its text; opaque linguistic metadata is not
needed by the engine and is not modelled.  Character filters, the
tokenizer and token filters are the plain function values the source
stores on the analyzer instance. -/

structure Token where
  text : String
deriving DecidableEq, Repr

structure Analyzer where
  charFilters : List (String → String)
  tokenize : String → List Token
  filters : List (List Token → List Token)

/-- `Analyzer.analyze` (analyzers/Analyzer.ts): apply the character
filters in order, tokenize, then apply the token filters in order. -/
def analyze (a : Analyzer) (s : String) : List Token :=
  a.filters.foldl (fun tokens f => f tokens)
    (a.tokenize (a.charFilters.foldl (fun text cf => cf text) s))

/-! ## Stream attribute values and `extractStringValues` (index.ts 91-102) -/

inductive AttrVal where
  | S (s : String)
  | SS (ss : List String)
  | L (l : List AttrVal)
  | N (n : String)
  | B (b : String)
  | BOOL (b : Bool)
  | NULL
  | M

mutual
/-- `extractStringValues` on a present value.  `if (value?.S)` tests JS
truthiness, so an empty string payload falls through every branch and
yields no values; an `SS` array (even empty) is returned verbatim; an `L`
array is flat-mapped recursively; every other type yields no values. -/
def extractFromVal : AttrVal → List String
  | .S s => if s = "" then [] else [s]
  | .SS ss => ss
  | .L l => extractFromList l
  | .N _ => []
  | .B _ => []
  | .BOOL _ => []
  | .NULL => []
  | .M => []

def extractFromList : List AttrVal → List String
  | [] => []
  | v :: vs => extractFromVal v ++ extractFromList vs
end

/-- `extractStringValues` (index.ts 91-102); an absent attribute yields
no values. -/
def extractStringValues : Option AttrVal → List String
  | some v => extractFromVal v
  | none => []

theorem extractFromList_eq_flatMap (l : List AttrVal) :
    extractFromList l = l.flatMap extractFromVal := by
  induction l with
  | nil => rfl
  | cons v vs ih => simp [extractFromList, ih]

/-! ## Attribute configuration -/

structure Attr where
  name : String
  shortName : Option String
  analyzer : Analyzer

/-- The posting partition-key attribute component
`attribute.shortName || attribute.name`: JS `||` falls back on an empty
(falsy) short name as well as on an absent one. -/
def attrKeyOf (a : Attr) : String :=
  match a.shortName with
  | some s => if s = "" then a.name else s
  | none => a.name

/-! ## Document key encoding inside the engine (`getEncodedKeys`)

A key attribute value `{S: "101"}` contributes `Object.keys(...)[0]`
(the type tag) and `Object.values(...)[0]` (the payload). Non-scalar key
values would throw in JS (`replaceAll` on a non-string) and none occur
for valid DynamoDB primary keys; they are mapped to an empty pair. -/

def avPair : AttrVal → (List Char × List Char)
  | .S s => (['S'], s.data)
  | .N n => (['N'], n.data)
  | .B b => (['B'], b.data)
  | _ => ([], [])

def avPairOpt : Option AttrVal → (List Char × List Char)
  | some v => avPair v
  | none => ([], [])

/-- `getEncodedKeys` (index.ts 188-193): encode the partition key value
and, when a sort key is configured, the sort key value, with the default
delimiter and escape characters. -/
def getEncodedKeys (pkName : String) (skName : Option String)
    (item : String → Option AttrVal) : String :=
  String.mk (encodeKeys ';' '\\'
    ([avPairOpt (item pkName)] ++
      (match skName with
        | some sk => [avPairOpt (item sk)]
        | none => [])))

/-! ## Token counting (the per-attribute `tokens` Map of `insertTokens`)

A JS `Map` preserves insertion order; `tokens.set(text, (tokens.get(text)
?? 0) + 1)` is the in-place bump below. -/

def bump : List (String × Nat) → String → List (String × Nat)
  | [], t => [(t, 1)]
  | (s, n) :: rest, t =>
    if s = t then (s, n + 1) :: rest else (s, n) :: bump rest t

def countTokens (ts : List String) : List (String × Nat) :=
  ts.foldl bump []

/-! ## Postings and the modelled index table

The 14-byte binary sort key packs the capped occurrence (2 bytes), the
capped document token count (4 bytes) and 8 bytes of the md5 hash of the
encoded key; the md5 bytes are abstracted as `keyHash` below. -/

structure Posting where
  attrKey : String
  token : String
  occurrence : Nat
  docTokenCount : Nat
  encodedKeys : String
  hash : Nat
deriving DecidableEq

/-- The stored partition key string `attrKey;token`. -/
def postingPk (p : Posting) : String := p.attrKey ++ ";" ++ p.token

/-- The DynamoDB primary key of a posting record: partition key string
plus the three packed sort-key components. -/
def tableKey (p : Posting) : String × Nat × Nat × Nat :=
  (postingPk p, p.occurrence, p.docTokenCount, p.hash)

/-- A `PutRequest` replaces any record with the same primary key. -/
def putPosting (index : List Posting) (p : Posting) : List Posting :=
  index.filter (fun q => tableKey q != tableKey p) ++ [p]

def applyPuts (index : List Posting) (ps : List Posting) : List Posting :=
  ps.foldl putPosting index

/-- `BATCH_SIZE` (index.ts line 20). -/
def BATCH_SIZE : Nat := 25

/-- The per-batch chunking of the loops
`for (i = 0; i < items.length; i += BATCH_SIZE) slice(i, i + BATCH_SIZE)`:
one `BATCH_SIZE`-wide slice per loop iteration, the loop running
`⌈items.length / BATCH_SIZE⌉` times. -/
def chunksOf (l : List α) : List (List α) :=
  (List.range ((l.length + BATCH_SIZE - 1) / BATCH_SIZE)).map
    (fun i => (l.drop (i * BATCH_SIZE)).take BATCH_SIZE)

/-! ## Store operations issued by the engine -/

inductive StoreOp where
  | batchPut (items : List Posting)
  | queryKeys (encodedKeys : String)
  | batchDelete (items : List Posting)
  | updateMeta (count : Int) (tokenDeltas : String → Int)

def StoreOp.isUpdateMeta : StoreOp → Bool
  | .updateMeta _ _ => true
  | _ => false

/-- The `resultMap` token-delta accumulator.  It is only ever read
through `resultMap.get(k) ?? 0`, so it is modelled as a total function
with default `0`; `set` is pointwise update. -/
def fset (m : String → Int) (k : String) (v : Int) : String → Int :=
  fun x => if x = k then v else m x

/-! ## `insertTokens` (index.ts 202-238) -/

/-- The analyzed token list `result` for one configured attribute:
extract the string values of the attribute and flat-map the attribute's
analyzer over them. -/
def analyzeAttr (a : Attr) (item : String → Option AttrVal) : List Token :=
  (extractStringValues (item a.name)).flatMap (fun str => analyze a.analyzer str)

/-- The `[...tokens.entries()]` list of (token text, occurrence count)
pairs for one attribute. -/
def insertAttrEntries (a : Attr) (item : String → Option AttrVal) :
    List (String × Nat) :=
  countTokens ((analyzeAttr a item).map Token.text)

/-- The posting records written for one attribute: occurrence capped at
2^16 − 1, document token count capped at 2^32 − 1, both as the binary
sort key stores them. -/
def insertAttrPostings (keyHash : String → Nat) (pkName : String)
    (skName : Option String) (a : Attr) (item : String → Option AttrVal) :
    List Posting :=
  (insertAttrEntries a item).map (fun e =>
    { attrKey := attrKeyOf a
      token := e.1
      occurrence := min (2 ^ 16 - 1) e.2
      docTokenCount := min (2 ^ 32 - 1) (analyzeAttr a item).length
      encodedKeys := getEncodedKeys pkName skName item
      hash := keyHash (getEncodedKeys pkName skName item) })

structure InsertResult where
  inserted : Nat
  resultMap : String → Int
  postings : List Posting
  ops : List StoreOp

/-- The body of the per-attribute loop of `insertTokens`. -/
def insertStep (keyHash : String → Nat) (pkName : String)
    (skName : Option String) (item : String → Option AttrVal)
    (acc : InsertResult) (a : Attr) : InsertResult :=
  let entries := insertAttrEntries a item
  let ps := insertAttrPostings keyHash pkName skName a item
  { inserted := acc.inserted + entries.length
    resultMap := fset acc.resultMap a.name
      (acc.resultMap a.name + ((analyzeAttr a item).length : Int))
    postings := acc.postings ++ ps
    ops := acc.ops ++ (chunksOf ps).map StoreOp.batchPut }

/-- `insertTokens`: for every configured attribute, analyze, add the
total analyzed token count to the attribute's entry of `resultMap`,
write one posting per distinct token in batches of 25, and count the
distinct postings written. -/
def insertTokens (keyHash : String → Nat) (attrs : List Attr)
    (pkName : String) (skName : Option String)
    (item : String → Option AttrVal) (rm0 : String → Int) : InsertResult :=
  attrs.foldl (insertStep keyHash pkName skName item)
    { inserted := 0, resultMap := rm0, postings := [], ops := [] }

/-! ## `deleteTokens` (index.ts 240-283) -/

/-- `s.split(';')[0]`: the characters before the first `;`. -/
def splitHead (s : String) : String :=
  String.mk (s.data.takeWhile (fun c => c ≠ ';'))

/-- `this.attributes.find(attr => attr.shortName === shortName)?.name ??
shortName`. -/
def resolveAttrName (attrs : List Attr) (shortName : String) : String :=
  match attrs.find? (fun attr => attr.shortName = some shortName) with
  | some attr => attr.name
  | none => shortName

structure DeleteResult where
  deleted : Nat
  resultMap : String → Int
  found : List Posting
  remaining : List Posting
  ops : List StoreOp

/-- The body of the occurrence-subtraction loop of `deleteTokens`:
resolve the attribute name from the posting's partition key and subtract
the stored occurrence from that attribute's token delta. -/
def deleteRmStep (attrs : List Attr) (rm : String → Int) (p : Posting) :
    String → Int :=
  let attributeName := resolveAttrName attrs (splitHead (postingPk p))
  fset rm attributeName (rm attributeName - (p.occurrence : Int))

/-- `deleteTokens`: query the keys index for every posting of the
document's encoded key, subtract each found posting's stored occurrence
from the token delta of its (resolved) attribute, then delete the found
records in batches of 25.  The counter increment `deleted +=
items.length` sits inside the per-batch loop in the source, and is
modelled exactly as written there. -/
def deleteTokens (attrs : List Attr) (pkName : String)
    (skName : Option String) (index : List Posting)
    (item : String → Option AttrVal) (rm0 : String → Int) : DeleteResult :=
  let enc := getEncodedKeys pkName skName item
  let items := index.filter (fun p => p.encodedKeys == enc)
  let rm := items.foldl (deleteRmStep attrs) rm0
  { deleted := (chunksOf items).foldl (fun d _ => d + items.length) 0
    resultMap := rm
    found := items
    remaining := index.filter (fun p => p.encodedKeys != enc)
    ops := StoreOp.queryKeys enc :: (chunksOf items).map StoreOp.batchDelete }

/-! ## `processRecords` (index.ts 371-386) -/

inductive EventName where
  | INSERT
  | MODIFY
  | REMOVE
deriving DecidableEq

structure StreamRecord where
  eventName : EventName
  keys : String → Option AttrVal
  newImage : String → Option AttrVal

structure EngineState where
  index : List Posting
  count : Int
  resultMap : String → Int
  ops : List StoreOp

/-- The body of the `processRecords` loop for one record: MODIFY/REMOVE
run `deleteTokens` on the record's key attributes (decrementing the
document count when at least one posting was removed), then
MODIFY/INSERT run `insertTokens` on the new image (incrementing the
document count when at least one posting was written). -/
def processRecord (keyHash : String → Nat) (attrs : List Attr)
    (pkName : String) (skName : Option String)
    (st : EngineState) (r : StreamRecord) : EngineState :=
  let st1 :=
    if r.eventName = .MODIFY ∨ r.eventName = .REMOVE then
      let dres := deleteTokens attrs pkName skName st.index r.keys st.resultMap
      { index := dres.remaining
        count := if dres.deleted > 0 then st.count - 1 else st.count
        resultMap := dres.resultMap
        ops := st.ops ++ dres.ops }
    else st
  if r.eventName = .MODIFY ∨ r.eventName = .INSERT then
    let ires := insertTokens keyHash attrs pkName skName r.newImage st1.resultMap
    { index := applyPuts st1.index ires.postings
      count := if ires.inserted > 0 then st1.count + 1 else st1.count
      resultMap := ires.resultMap
      ops := st1.ops ++ ires.ops }
  else st1

/-- `processRecords`: process every record of the batch in order, then
issue the single `updateMetadata` call carrying the accumulated document
count delta and the accumulated per-attribute token deltas. -/
def processRecords (keyHash : String → Nat) (attrs : List Attr)
    (pkName : String) (skName : Option String)
    (index0 : List Posting) (records : List StreamRecord) : EngineState :=
  let st := records.foldl (processRecord keyHash attrs pkName skName)
    { index := index0, count := 0, resultMap := fun _ => 0, ops := [] }
  { st with ops := st.ops ++ [StoreOp.updateMeta st.count st.resultMap] }

/-! ## `search` (index.ts 401-464)

Only the scoring accumulation and capacity accounting are modelled; the
final filter/sort/truncate/decode post-processing of the candidates map
is not the subject of any claim.  A retrieved item carries the two
numbers read back from the binary sort key and the projected encoded
keys string.  The store is modelled by the metadata record contents, the
capacity the store reports for the metadata `GetItem` (which the code
discards: `getMetadata` issues its `GetItemCommand` without
`ReturnConsumedCapacity` and adds nothing to the running total), and the
per-partition-key lookup results with their reported capacity. -/

structure SItem where
  occurrence : Nat
  tokenCount : Nat
  encodedKeys : String

structure QAttr where
  name : String
  shortName : Option String
  analyzer : Analyzer
  boost : Option ℝ

/-- `_attributes[i].shortName || _attributes[i].name` at query time. -/
def qattrKeyOf (a : QAttr) : String :=
  match a.shortName with
  | some s => if s = "" then a.name else s
  | none => a.name

structure SStore where
  docCount : Int
  tokenCount : String → Int
  metaCapacity : Option ℝ
  lookup : String → List SItem × Option ℝ

structure BM25Params where
  k1 : Option ℝ
  b : Option ℝ

structure SearchOptions where
  bm25 : Option BM25Params

/-- The destructuring default `bm25: { k1 = 1.2, b = 0.75 } = {}`. -/
noncomputable def effectiveK1 (o : SearchOptions) : ℝ :=
  match o.bm25 with
  | none => 1.2
  | some p => p.k1.getD 1.2

noncomputable def effectiveB (o : SearchOptions) : ℝ :=
  match o.bm25 with
  | none => 0.75
  | some p => p.b.getD 0.75

/-- `[...new Set(xs)]`: deduplication keeping first occurrences in
order. -/
def dedupFirst : List String → List String
  | [] => []
  | x :: xs => x :: dedupFirst (xs.filter (fun y => y != x))
  termination_by l => l.length
  decreasing_by
    simp only [List.length_cons]
    exact Nat.lt_succ_of_le (List.length_filter_le _ _)

/-- `candidates.set(key, (candidates.get(key) ?? 0) + score)`; the map is
modelled as a total function with default `0`. -/
noncomputable def addCandidate (cands : String → ℝ) (key : String) (score : ℝ) :
    String → ℝ :=
  fun x => if x = key then cands key + score else cands x

structure SearchAccum where
  consumedCapacity : ℝ
  candidates : String → ℝ

/-- The body of the per-word loop of `search`: one range lookup for the
partition key `attrKey;word`, accumulation of the reported capacity, and
one BM25 score accumulation per retrieved item. -/
noncomputable def searchQueryWord (k1 b : ℝ) (docCount : Int)
    (tokenCount : String → Int) (lookup : String → List SItem × Option ℝ)
    (a : QAttr) (acc : SearchAccum) (word : String) : SearchAccum :=
  let res := lookup (qattrKeyOf a ++ ";" ++ word)
  let items := res.1
  let idf := Real.log (1 + ((docCount : ℝ) - items.length + 0.5) / (items.length + 0.5))
  { consumedCapacity := acc.consumedCapacity + res.2.getD 0
    candidates := items.foldl (fun cands it =>
      let averageTokenCount := (tokenCount a.name : ℝ) / (docCount : ℝ)
      let tf := (it.occurrence : ℝ) /
        ((it.occurrence : ℝ) + k1 * (1 - b + b * ((it.tokenCount : ℝ) / averageTokenCount)))
      let score := a.boost.getD 1 * tf * idf * (k1 + 1)
      addCandidate cands it.encodedKeys score) acc.candidates }

/-- The per-attribute loop body of `search`: analyze the query with the
attribute's analyzer, de-duplicate the token texts, then run the
per-word loop. -/
noncomputable def searchAttr (k1 b : ℝ) (docCount : Int)
    (tokenCount : String → Int) (lookup : String → List SItem × Option ℝ)
    (query : String) (acc : SearchAccum) (a : QAttr) : SearchAccum :=
  let words := dedupFirst ((analyze a.analyzer query).map Token.text)
  words.foldl (searchQueryWord k1 b docCount tokenCount lookup a) acc

/-- `search`: read the metadata once, then fold the per-attribute loop
over the searched attributes, starting from zero capacity and an empty
candidates map. -/
noncomputable def search (attrs : List QAttr) (store : SStore)
    (query : String) (opts : SearchOptions) : SearchAccum :=
  let k1 := effectiveK1 opts
  let b := effectiveB opts
  attrs.foldl
    (searchAttr k1 b store.docCount store.tokenCount store.lookup query)
    { consumedCapacity := 0, candidates := fun _ => 0 }

/-! ## The BM25 formulas as the specification states them -/

/-- `idf = ln(1 + (N − df + 0.5) / (df + 0.5))`. -/
noncomputable def bm25Idf (docCount : Int) (df : Nat) : ℝ :=
  Real.log (1 + ((docCount : ℝ) - df + 0.5) / (df + 0.5))

/-- `tf = occurrence / (occurrence + k1 × (1 − b + b × (documentTokenCount / avgLen)))`. -/
noncomputable def bm25Tf (k1 b : ℝ) (occurrence tokenCount : Nat) (avgLen : ℝ) : ℝ :=
  (occurrence : ℝ) /
    ((occurrence : ℝ) + k1 * (1 - b + b * ((tokenCount : ℝ) / avgLen)))

/-- `score = boost × tf × idf × (k1 + 1)`. -/
noncomputable def bm25Score (boost tf idf k1 : ℝ) : ℝ :=
  boost * tf * idf * (k1 + 1)

/-! ## Claim C9: analyzer determinism -/

/-- Claim C9: for every input string and every fixed analyzer
configuration (character filters, tokenizer, token filters), any two
calls to `analyze` on that string return identical token sequences: the
output is a pure function of the configuration and the input. -/
theorem analyze_deterministic (a b : Analyzer) (s : String)
    (hcf : a.charFilters = b.charFilters) (ht : a.tokenize = b.tokenize)
    (hf : a.filters = b.filters) : analyze a s = analyze b s := by
  simp [analyze, hcf, ht, hf]

/-- Witness for C9 at a concrete analyzer and input. -/
theorem analyze_deterministic_witness :
    analyze ⟨[], fun s => [⟨s⟩], []⟩ "New item!" =
      analyze ⟨[], fun s => [⟨s⟩], []⟩ "New item!" :=
  analyze_deterministic _ _ _ rfl rfl rfl

/-! ## Claim C7: BM25 monotonicity in the occurrence field -/

/-- Claim C7: for two postings retrieved by the same (attribute, token)
query — sharing `df` (with at most `N` postings retrieved), the average
length (positive), the document token count, the boost (non-negative)
and the BM25 parameters (`k1 ≥ 0`, `0 ≤ b ≤ 1`) — the posting with the
higher occurrence receives a `tf` greater than or equal to the other's,
and hence a score greater than or equal to the other's. -/
theorem bm25_monotone (k1 b boost avgLen : ℝ) (docCount : Int)
    (df tc o₁ o₂ : Nat) (hk1 : 0 ≤ k1) (hb0 : 0 ≤ b) (hb1 : b ≤ 1)
    (havg : 0 < avgLen) (hboost : 0 ≤ boost) (hdf : (df : Int) ≤ docCount)
    (ho : o₁ ≤ o₂) :
    bm25Tf k1 b o₁ tc avgLen ≤ bm25Tf k1 b o₂ tc avgLen ∧
      bm25Score boost (bm25Tf k1 b o₁ tc avgLen) (bm25Idf docCount df) k1 ≤
        bm25Score boost (bm25Tf k1 b o₂ tc avgLen) (bm25Idf docCount df) k1 := by
  have hC : 0 ≤ k1 * (1 - b + b * ((tc : ℝ) / avgLen)) := by
    apply mul_nonneg hk1
    have h1 : 0 ≤ 1 - b := by linarith
    have h2 : 0 ≤ b * ((tc : ℝ) / avgLen) :=
      mul_nonneg hb0 (div_nonneg (Nat.cast_nonneg tc) havg.le)
    linarith
  have hoR : (o₁ : ℝ) ≤ (o₂ : ℝ) := Nat.cast_le.mpr ho
  have htf : bm25Tf k1 b o₁ tc avgLen ≤ bm25Tf k1 b o₂ tc avgLen := by
    rw [bm25Tf, bm25Tf]
    rcases Nat.eq_zero_or_pos o₁ with h0 | hpos
    · subst h0
      simp only [Nat.cast_zero, zero_div]
      exact div_nonneg (Nat.cast_nonneg o₂)
        (by positivity)
    · have h1 : (0 : ℝ) < (o₁ : ℝ) := by exact_mod_cast hpos
      have h2 : (0 : ℝ) < (o₂ : ℝ) := lt_of_lt_of_le h1 hoR
      rw [div_le_div_iff₀ (by linarith) (by linarith)]
      nlinarith [mul_le_mul_of_nonneg_right hoR hC]
  refine ⟨htf, ?_⟩
  have hidf : 0 ≤ bm25Idf docCount df := by
    rw [bm25Idf]
    apply Real.log_nonneg
    have hnum : (0 : ℝ) ≤ (docCount : ℝ) - (df : ℝ) + 0.5 := by
      have : (df : ℝ) ≤ (docCount : ℝ) := by exact_mod_cast hdf
      linarith
    have hden : (0 : ℝ) < (df : ℝ) + 0.5 := by positivity
    have := div_nonneg hnum hden.le
    linarith
  rw [bm25Score, bm25Score]
  have h1 := mul_le_mul_of_nonneg_left htf hboost
  have h2 := mul_le_mul_of_nonneg_right h1 hidf
  exact mul_le_mul_of_nonneg_right h2 (by linarith : (0 : ℝ) ≤ k1 + 1)

/-- Witness for C7 at the default parameters and concrete postings. -/
theorem bm25_monotone_witness :
    bm25Tf 1.2 0.75 1 2 2 ≤ bm25Tf 1.2 0.75 2 2 2 ∧
      bm25Score 1 (bm25Tf 1.2 0.75 1 2 2) (bm25Idf 1 1) 1.2 ≤
        bm25Score 1 (bm25Tf 1.2 0.75 2 2 2) (bm25Idf 1 1) 1.2 :=
  bm25_monotone 1.2 0.75 1 2 1 1 2 1 2 (by norm_num) (by norm_num)
    (by norm_num) (by norm_num) (by norm_num) (by norm_num) (by norm_num)

/-! ## Claim C1: the per-posting BM25 score accumulation of `search` -/

theorem foldl_addCandidate (g : SItem → ℝ) (items : List SItem) :
    ∀ (cands : String → ℝ) (K : String),
    (items.foldl (fun cands it => addCandidate cands it.encodedKeys (g it)) cands) K
      = cands K + ((items.filter (fun it => it.encodedKeys == K)).map g).sum := by
  induction items with
  | nil => intro cands K; simp
  | cons it rest ih =>
    intro cands K
    simp only [List.foldl_cons]
    rw [ih]
    by_cases h : it.encodedKeys = K
    · have h' : K = it.encodedKeys := h.symm
      simp only [List.filter_cons, h, beq_self_eq_true, if_pos, List.map_cons,
        List.sum_cons, addCandidate, if_pos h']
      ring
    · have h' : ¬(K = it.encodedKeys) := fun hh => h hh.symm
      simp only [List.filter_cons, addCandidate, if_neg h']
      rw [if_neg (by simpa using h)]

/-- The total score contribution of one (attribute, word) query to the
candidate keyed `K`, as the specification's formulas state it:
`df` is the number of postings retrieved for the pair, `avgLen` is
`tokenCount[attribute] / N`, and each retrieved posting for `K`
contributes `boost × tf × idf × (k1 + 1)`. -/
noncomputable def wordScoreSum (k1 b : ℝ) (dc : Int) (tc : String → Int)
    (lookup : String → List SItem × Option ℝ) (a : QAttr) (K w : String) : ℝ :=
  (((lookup (qattrKeyOf a ++ ";" ++ w)).1.filter
      (fun it => it.encodedKeys == K)).map (fun it =>
    a.boost.getD 1 *
      bm25Tf k1 b it.occurrence it.tokenCount ((tc a.name : ℝ) / (dc : ℝ)) *
      bm25Idf dc (lookup (qattrKeyOf a ++ ";" ++ w)).1.length * (k1 + 1))).sum

theorem searchQueryWord_candidates (k1 b : ℝ) (dc : Int) (tc : String → Int)
    (lookup : String → List SItem × Option ℝ) (a : QAttr)
    (acc : SearchAccum) (w K : String) :
    (searchQueryWord k1 b dc tc lookup a acc w).candidates K =
      acc.candidates K + wordScoreSum k1 b dc tc lookup a K w := by
  simp only [searchQueryWord, wordScoreSum, bm25Tf, bm25Idf]
  rw [foldl_addCandidate]

theorem searchQueryWord_capacity (k1 b : ℝ) (dc : Int) (tc : String → Int)
    (lookup : String → List SItem × Option ℝ) (a : QAttr)
    (acc : SearchAccum) (w : String) :
    (searchQueryWord k1 b dc tc lookup a acc w).consumedCapacity =
      acc.consumedCapacity + ((lookup (qattrKeyOf a ++ ";" ++ w)).2.getD 0) := by
  simp [searchQueryWord]

theorem foldl_searchQueryWord (k1 b : ℝ) (dc : Int) (tc : String → Int)
    (lookup : String → List SItem × Option ℝ) (a : QAttr) (K : String)
    (words : List String) : ∀ acc : SearchAccum,
    (words.foldl (searchQueryWord k1 b dc tc lookup a) acc).candidates K =
      acc.candidates K + (words.map (wordScoreSum k1 b dc tc lookup a K)).sum ∧
    (words.foldl (searchQueryWord k1 b dc tc lookup a) acc).consumedCapacity =
      acc.consumedCapacity +
        (words.map (fun w => (lookup (qattrKeyOf a ++ ";" ++ w)).2.getD 0)).sum := by
  induction words with
  | nil => intro acc; simp
  | cons w rest ih =>
    intro acc
    simp only [List.foldl_cons, List.map_cons, List.sum_cons]
    refine ⟨?_, ?_⟩
    · rw [(ih _).1, searchQueryWord_candidates]
      ring
    · rw [(ih _).2, searchQueryWord_capacity]
      ring

/-- The de-duplicated analyzed query token texts for one searched
attribute. -/
def queryWords (a : QAttr) (query : String) : List String :=
  dedupFirst ((analyze a.analyzer query).map Token.text)

theorem searchAttr_accum (k1 b : ℝ) (dc : Int) (tc : String → Int)
    (lookup : String → List SItem × Option ℝ) (query : String) (a : QAttr)
    (acc : SearchAccum) (K : String) :
    (searchAttr k1 b dc tc lookup query acc a).candidates K =
      acc.candidates K +
        ((queryWords a query).map (wordScoreSum k1 b dc tc lookup a K)).sum ∧
    (searchAttr k1 b dc tc lookup query acc a).consumedCapacity =
      acc.consumedCapacity +
        ((queryWords a query).map
          (fun w => (lookup (qattrKeyOf a ++ ";" ++ w)).2.getD 0)).sum := by
  simp only [searchAttr, queryWords]
  exact foldl_searchQueryWord k1 b dc tc lookup a K _ acc

theorem foldl_searchAttr (k1 b : ℝ) (dc : Int) (tc : String → Int)
    (lookup : String → List SItem × Option ℝ) (query : String) (K : String)
    (attrs : List QAttr) : ∀ acc : SearchAccum,
    (attrs.foldl (searchAttr k1 b dc tc lookup query) acc).candidates K =
      acc.candidates K +
        (attrs.map (fun a =>
          ((queryWords a query).map (wordScoreSum k1 b dc tc lookup a K)).sum)).sum ∧
    (attrs.foldl (searchAttr k1 b dc tc lookup query) acc).consumedCapacity =
      acc.consumedCapacity +
        (attrs.map (fun a => ((queryWords a query).map
          (fun w => (lookup (qattrKeyOf a ++ ";" ++ w)).2.getD 0)).sum)).sum := by
  induction attrs with
  | nil => intro acc; simp
  | cons a rest ih =>
    intro acc
    simp only [List.foldl_cons, List.map_cons, List.sum_cons]
    refine ⟨?_, ?_⟩
    · rw [(ih _).1, (searchAttr_accum k1 b dc tc lookup query a acc K).1]
      ring
    · rw [(ih _).2, (searchAttr_accum k1 b dc tc lookup query a acc K).2]
      ring

/-- Claim C1: for every search call, the accumulated score of each
candidate document key `K` is the sum, over every searched attribute and
every de-duplicated query token, of `boost × tf × idf × (k1 + 1)` for
each posting retrieved for that (attribute, token) pair whose encoded
key is `K`, with `idf = ln(1 + (N − df + 0.5)/(df + 0.5))` for `df` the
number of postings retrieved for the pair, `tf` the BM25 term frequency
with `avgLen = tokenCount[attribute] / N`, and — when the caller does
not override them — `k1 = 1.2` and `b = 0.75`. -/
theorem search_scores (attrs : List QAttr) (store : SStore) (query : String)
    (opts : SearchOptions) (K : String) :
    (search attrs store query opts).candidates K =
      (attrs.map (fun a =>
        ((queryWords a query).map
          (wordScoreSum (effectiveK1 opts) (effectiveB opts) store.docCount
            store.tokenCount store.lookup a K)).sum)).sum ∧
    (opts.bm25 = none → effectiveK1 opts = 1.2 ∧ effectiveB opts = 0.75) := by
  constructor
  · rw [search,
      (foldl_searchAttr (effectiveK1 opts) (effectiveB opts) store.docCount
        store.tokenCount store.lookup query K attrs _).1]
    simp
  · intro h
    simp [effectiveK1, effectiveB, h]

/-- Witness for C1 (the defaults clause has a hypothesis): a concrete
one-attribute search with no BM25 override. -/
theorem search_scores_witness :
    ((search [⟨"Message", none, ⟨[], fun s => [⟨s⟩], []⟩, none⟩]
        ⟨1, fun _ => 2, none, fun _ => ([], none)⟩ "new" ⟨none⟩).candidates "k" =
      ([⟨"Message", none, ⟨[], fun s => [⟨s⟩], []⟩, none⟩].map
        (fun a : QAttr =>
        ((queryWords a "new").map
          (wordScoreSum (effectiveK1 ⟨none⟩) (effectiveB ⟨none⟩) 1
            (fun _ => 2) (fun _ => ([], none)) a "k")).sum)).sum ∧
      ((⟨none⟩ : SearchOptions).bm25 = none →
        effectiveK1 ⟨none⟩ = 1.2 ∧ effectiveB ⟨none⟩ = 0.75)) :=
  search_scores [⟨"Message", none, ⟨[], fun s => [⟨s⟩], []⟩, none⟩]
    ⟨1, fun _ => 2, none, fun _ => ([], none)⟩ "new" ⟨none⟩ "k"

/-! ## Claim C8: the returned consumed-capacity total

The source initializes `consumedCapacity = 0`, calls `getMetadata()`
(whose `GetItemCommand` does not set `ReturnConsumedCapacity` and whose
result contributes nothing to the total), and then adds
`ConsumedCapacity?.CapacityUnits ?? 0` for each range lookup only.  The
claim that the metadata read is included is therefore false. -/

/-- Counterexample to C8 as stated: with one searched attribute, one
query token, a range lookup reported at 2 capacity units and a metadata
read reported at 5 capacity units, the returned `capacityUnits` is 2,
not the claimed lookup-sum-plus-metadata-read 2 + 5. -/
theorem search_capacity_counterexample :
    (search [⟨"Message", none, ⟨[], fun s => [⟨s⟩], []⟩, none⟩]
        ⟨1, fun _ => 2, some 5, fun _ => ([], some 2)⟩ "new" ⟨none⟩).consumedCapacity ≠
      (([(⟨"Message", none, ⟨[], fun s => [⟨s⟩], []⟩, none⟩ : QAttr)].map
        (fun a => ((queryWords a "new").map
          (fun w => ((fun (_ : String) => (([] : List SItem), some (2:ℝ))) (qattrKeyOf a ++ ";" ++ w)).2.getD 0)).sum)).sum +
        (some (5:ℝ)).getD 0) := by
  have hwords : dedupFirst ((analyze ⟨[], fun s => [⟨s⟩], []⟩ "new").map Token.text) = ["new"] := by
    simp [analyze, dedupFirst]
  simp only [search, List.foldl_cons, List.foldl_nil, searchAttr, queryWords, hwords,
    searchQueryWord, List.map_cons, List.map_nil, List.sum_cons, List.sum_nil,
    Option.getD_some]
  norm_num

/-- Amended claim C8: for every search call, the returned
`consumedCapacity.capacityUnits` equals the sum, over all
per-(attribute, token) range lookups, of the read-capacity the store
reported for that lookup (absent capacity counting as 0); the metadata
read performed for corpus statistics is not included in the total. -/
theorem search_capacity (attrs : List QAttr) (store : SStore)
    (query : String) (opts : SearchOptions) :
    (search attrs store query opts).consumedCapacity =
      (attrs.map (fun a => ((queryWords a query).map
        (fun w => (store.lookup (qattrKeyOf a ++ ";" ++ w)).2.getD 0)).sum)).sum := by
  rw [search,
    (foldl_searchAttr (effectiveK1 opts) (effectiveB opts) store.docCount
      store.tokenCount store.lookup query "" attrs _).2]
  simp

/-! ## Counting and fold lemmas for the maintenance engine -/

theorem bump_snd_sum (m : List (String × Nat)) (t : String) :
    ((bump m t).map Prod.snd).sum = (m.map Prod.snd).sum + 1 := by
  induction m with
  | nil => simp [bump]
  | cons e rest ih =>
    obtain ⟨s, n⟩ := e
    simp only [bump]
    split
    · simp [Nat.add_assoc, Nat.add_comm, Nat.add_left_comm]
    · simp only [List.map_cons, List.sum_cons, ih]
      omega

theorem foldl_bump_snd_sum (ts : List String) :
    ∀ m, ((ts.foldl bump m).map Prod.snd).sum = (m.map Prod.snd).sum + ts.length := by
  induction ts with
  | nil => intro m; simp
  | cons t rest ih =>
    intro m
    simp only [List.foldl_cons]
    rw [ih, bump_snd_sum]
    simp only [List.length_cons]
    omega

/-- The occurrence counts of a token list sum to the length of the list. -/
theorem countTokens_snd_sum (ts : List String) :
    ((countTokens ts).map Prod.snd).sum = ts.length := by
  simpa [countTokens] using foldl_bump_snd_sum ts []

theorem foldl_bump_replicate (t : String) :
    ∀ (n k : Nat), (List.replicate n t).foldl bump [(t, k)] = [(t, k + n)] := by
  intro n
  induction n with
  | zero => intro k; simp
  | succ m ih =>
    intro k
    have hb : bump [(t, k)] t = [(t, k + 1)] := by simp [bump]
    have harith : k + 1 + m = k + (m + 1) := by omega
    simp only [List.replicate_succ, List.foldl_cons, hb]
    rw [ih, harith]

/-- Counting a list of `n` copies of one token yields that token with
count `n`. -/
theorem countTokens_replicate (t : String) (n : Nat) (hn : n ≠ 0) :
    countTokens (List.replicate n t) = [(t, n)] := by
  cases n with
  | zero => exact absurd rfl hn
  | succ m =>
    simp only [countTokens, List.replicate_succ, List.foldl_cons, bump]
    rw [foldl_bump_replicate, Nat.add_comm 1 m]

theorem foldl_add_const {α : Type} (m : Nat) (l : List α) :
    ∀ d, l.foldl (fun d _ => d + m) d = d + l.length * m := by
  induction l with
  | nil => intro d; simp
  | cons x xs ih =>
    intro d
    simp only [List.foldl_cons]
    rw [ih]
    simp only [List.length_cons]
    ring

theorem chunksOf_eq_nil_iff {α : Type} (l : List α) :
    chunksOf l = [] ↔ l = [] := by
  cases l with
  | nil => simp [chunksOf, BATCH_SIZE]
  | cons x xs =>
    simp only [chunksOf, BATCH_SIZE, List.map_eq_nil_iff, List.range_eq_nil,
      List.length_cons]
    constructor
    · intro h; omega
    · intro h; exact absurd h (by simp)

theorem takeWhile_append_stop (p : Char → Bool) :
    ∀ (l₁ : List Char) (c : Char) (l₂ : List Char),
    (∀ x ∈ l₁, p x = true) → p c = false →
    (l₁ ++ c :: l₂).takeWhile p = l₁ := by
  intro l₁
  induction l₁ with
  | nil => intro c l₂ _ hc; simp [List.takeWhile_cons, hc]
  | cons x xs ih =>
    intro c l₂ h hc
    simp only [List.cons_append, List.takeWhile_cons,
      h x (List.mem_cons_self _ _), if_pos]
    rw [ih c l₂ (fun y hy => h y (List.mem_cons_of_mem _ hy)) hc]

/-- Splitting a stored partition key `attrKey;token` at the first `;`
recovers the attribute key, provided the attribute key itself contains
no `;`. -/
theorem splitHead_pk (s t : String) (hs : ';' ∉ s.data) :
    splitHead (s ++ ";" ++ t) = s := by
  have hdata : (s ++ ";" ++ t).data = s.data ++ ';' :: t.data := by
    simp [String.data_append]
  have hall : ∀ x ∈ s.data, (fun c => decide ¬(c = ';')) x = true := by
    intro x hx
    by_cases h : x = ';'
    · exact absurd (h ▸ hx) hs
    · simp [h]
  rw [splitHead, hdata, takeWhile_append_stop _ s.data ';' t.data hall (by simp)]

theorem foldl_insertStep (keyHash : String → Nat) (pk : String)
    (sk : Option String) (item : String → Option AttrVal)
    (attrs : List Attr) : ∀ acc : InsertResult,
    (attrs.foldl (insertStep keyHash pk sk item) acc).inserted =
      acc.inserted + (attrs.map (fun a => (insertAttrEntries a item).length)).sum ∧
    (attrs.foldl (insertStep keyHash pk sk item) acc).postings =
      acc.postings ++ attrs.flatMap (fun a => insertAttrPostings keyHash pk sk a item) ∧
    (attrs.foldl (insertStep keyHash pk sk item) acc).ops =
      acc.ops ++ attrs.flatMap
        (fun a => (chunksOf (insertAttrPostings keyHash pk sk a item)).map StoreOp.batchPut) ∧
    ∀ n, (attrs.foldl (insertStep keyHash pk sk item) acc).resultMap n =
      acc.resultMap n + ((attrs.filter (fun a => a.name == n)).map
        (fun a => ((analyzeAttr a item).length : Int))).sum := by
  induction attrs with
  | nil => intro acc; simp
  | cons a rest ih =>
    intro acc
    obtain ⟨h1, h2, h3, h4⟩ := ih (insertStep keyHash pk sk item acc a)
    simp only [List.foldl_cons, List.map_cons, List.sum_cons, List.flatMap_cons,
      List.filter_cons]
    refine ⟨?_, ?_, ?_, ?_⟩
    · rw [h1]
      simp only [insertStep]
      omega
    · rw [h2]
      simp [insertStep, List.append_assoc]
    · rw [h3]
      simp [insertStep, List.append_assoc]
    · intro n
      rw [h4 n]
      by_cases hn : a.name = n
      · have hb : (a.name == n) = true := by simpa using hn
        simp only [insertStep, fset, hb, if_pos, List.map_cons, List.sum_cons,
          if_pos hn.symm]
        rw [hn]
        ring
      · have hb : (a.name == n) = false := by simpa using hn
        simp only [insertStep, fset, hb, Bool.false_eq_true, if_false]
        rw [if_neg (fun h => hn h.symm)]

theorem foldl_deleteRmStep (attrs : List Attr) (items : List Posting) :
    ∀ (rm0 : String → Int) (n : String),
    (items.foldl (deleteRmStep attrs) rm0) n =
      rm0 n - ((items.filter
        (fun p => resolveAttrName attrs (splitHead (postingPk p)) == n)).map
          (fun p => (p.occurrence : Int))).sum := by
  induction items with
  | nil => intro rm0 n; simp
  | cons p rest ih =>
    intro rm0 n
    simp only [List.foldl_cons, List.filter_cons]
    rw [ih]
    by_cases hn : resolveAttrName attrs (splitHead (postingPk p)) = n
    · have hb : (resolveAttrName attrs (splitHead (postingPk p)) == n) = true := by
        simpa using hn
      simp only [deleteRmStep, fset, hb, if_pos, List.map_cons, List.sum_cons,
        if_pos hn.symm]
      rw [hn]
      ring
    · have hb : (resolveAttrName attrs (splitHead (postingPk p)) == n) = false := by
        simpa using hn
      simp only [deleteRmStep, fset, hb, Bool.false_eq_true, if_false]
      rw [if_neg (fun h => hn h.symm)]

theorem insertAttrPostings_length (keyHash : String → Nat) (pk : String)
    (sk : Option String) (a : Attr) (item : String → Option AttrVal) :
    (insertAttrPostings keyHash pk sk a item).length =
      (insertAttrEntries a item).length := by
  simp [insertAttrPostings]

theorem flatMap_insertAttrPostings_length (keyHash : String → Nat)
    (pk : String) (sk : Option String) (item : String → Option AttrVal)
    (attrs : List Attr) :
    (attrs.flatMap (fun a => insertAttrPostings keyHash pk sk a item)).length =
      (attrs.map (fun a => (insertAttrEntries a item).length)).sum := by
  induction attrs with
  | nil => simp
  | cons a rest ih => simp [insertAttrPostings_length, ih]

/-- `inserted` equals the number of postings written. -/
theorem insertTokens_inserted_eq_length (keyHash : String → Nat)
    (attrs : List Attr) (pk : String) (sk : Option String)
    (item : String → Option AttrVal) (rm0 : String → Int) :
    (insertTokens keyHash attrs pk sk item rm0).inserted =
      (insertTokens keyHash attrs pk sk item rm0).postings.length := by
  obtain ⟨h1, h2, _, _⟩ := foldl_insertStep keyHash pk sk item attrs
    { inserted := 0, resultMap := rm0, postings := [], ops := [] }
  rw [insertTokens, h1, h2]
  simp only [List.nil_append, Nat.zero_add, flatMap_insertAttrPostings_length]

/-! ## Claim C10: value extraction in `insertTokens` -/

/-- Claim C10: for every document and configured attribute, an absent
value or a value that is not a string, string set, or list yields zero
analyzed tokens, no postings and a zero token-count delta (`analyzeAttr`
has length 0, which is exactly the amount added to the attribute's
token delta), and incurs no error (the extraction is total); a string
set's elements are all extracted, a list is flat-mapped elementwise with
the same rules as top-level values, and the postings and token count
produced depend on the value only through the concatenated analyzed
token stream — exactly as if the extracted strings were part of a
single string attribute. -/
theorem insert_extract_values (keyHash : String → Nat) (pk : String)
    (sk : Option String) (a : Attr) :
    (∀ item : String → Option AttrVal,
      (item a.name = none ∨ item a.name = some .NULL ∨ item a.name = some .M ∨
        (∃ n, item a.name = some (.N n)) ∨ (∃ s, item a.name = some (.B s)) ∨
        (∃ bl, item a.name = some (.BOOL bl))) →
      insertAttrPostings keyHash pk sk a item = [] ∧
        insertAttrEntries a item = [] ∧ (analyzeAttr a item).length = 0) ∧
    (∀ ss, extractStringValues (some (.SS ss)) = ss) ∧
    (∀ l, extractStringValues (some (.L l)) = l.flatMap extractFromVal) ∧
    (∀ item₁ item₂ : String → Option AttrVal,
      (extractStringValues (item₁ a.name)).flatMap (fun str => analyze a.analyzer str) =
        (extractStringValues (item₂ a.name)).flatMap (fun str => analyze a.analyzer str) →
      getEncodedKeys pk sk item₁ = getEncodedKeys pk sk item₂ →
      insertAttrPostings keyHash pk sk a item₁ = insertAttrPostings keyHash pk sk a item₂ ∧
        (analyzeAttr a item₁).length = (analyzeAttr a item₂).length) := by
  refine ⟨?_, ?_, ?_, ?_⟩
  · intro item h
    have hext : extractStringValues (item a.name) = [] := by
      rcases h with h | h | h | ⟨n, h⟩ | ⟨s, h⟩ | ⟨bl, h⟩ <;> rw [h] <;> rfl
    have hana : analyzeAttr a item = [] := by
      rw [analyzeAttr, hext]
      rfl
    exact ⟨by simp [insertAttrPostings, insertAttrEntries, hana, countTokens],
      by simp [insertAttrEntries, hana, countTokens], by simp [hana]⟩
  · intro ss; rfl
  · intro l
    simp [extractStringValues, extractFromVal, extractFromList_eq_flatMap]
  · intro item₁ item₂ hstream henc
    have hana : analyzeAttr a item₁ = analyzeAttr a item₂ := hstream
    refine ⟨?_, by rw [hana]⟩
    rw [insertAttrPostings, insertAttrPostings, insertAttrEntries,
      insertAttrEntries, hana, henc]

/-- Witness for C10: a numeric attribute value yields no postings, and a
string set is extracted verbatim. -/
theorem insert_extract_values_witness :
    insertAttrPostings (fun _ => 0) "Id" none
      ⟨"Message", none, ⟨[], fun s => [⟨s⟩], []⟩⟩ (fun _ => some (.N "101")) = [] ∧
    extractStringValues (some (.SS ["a", "b"])) = ["a", "b"] :=
  ⟨((insert_extract_values (fun _ => 0) "Id" none
      ⟨"Message", none, ⟨[], fun s => [⟨s⟩], []⟩⟩).1 (fun _ => some (.N "101"))
      (Or.inr (Or.inr (Or.inr (Or.inl ⟨"101", rfl⟩))))).1,
    (insert_extract_values (fun _ => 0) "Id" none
      ⟨"Message", none, ⟨[], fun s => [⟨s⟩], []⟩⟩).2.1 ["a", "b"]⟩

/-! ## Claim C6: occurrence sums versus the stored document token count -/

/-- Amended claim C6: for every document and configured attribute, the
postings written by `insertTokens` for that attribute all store the same
`documentTokenCount`, the `occurrence` field is capped at 65535 and
`documentTokenCount` at 2^32 − 1; and the sum of the stored occurrence
fields equals the stored `documentTokenCount` PROVIDED no distinct token
occurs more than 65535 times and the attribute's analyzed token count is
at most 2^32 − 1 (when the occurrence cap binds, the sum falls short of
the stored total). -/
theorem insert_occurrence_sum (keyHash : String → Nat) (pk : String)
    (sk : Option String) (a : Attr) (item : String → Option AttrVal)
    (hocc : ∀ e ∈ insertAttrEntries a item, e.2 ≤ 2 ^ 16 - 1)
    (hlen : (analyzeAttr a item).length ≤ 2 ^ 32 - 1) :
    ((insertAttrPostings keyHash pk sk a item).map Posting.occurrence).sum =
      (analyzeAttr a item).length ∧
    (∀ p ∈ insertAttrPostings keyHash pk sk a item,
      p.docTokenCount =
        ((insertAttrPostings keyHash pk sk a item).map Posting.occurrence).sum) ∧
    (∀ p ∈ insertAttrPostings keyHash pk sk a item,
      p.occurrence ≤ 2 ^ 16 - 1 ∧ p.docTokenCount ≤ 2 ^ 32 - 1) := by
  have hmap : (insertAttrPostings keyHash pk sk a item).map Posting.occurrence =
      (insertAttrEntries a item).map (fun e => min (2 ^ 16 - 1) e.2) := by
    simp [insertAttrPostings, List.map_map, Function.comp]
  have hsum : ((insertAttrPostings keyHash pk sk a item).map Posting.occurrence).sum =
      (analyzeAttr a item).length := by
    rw [hmap, List.map_congr_left
      (fun e he => Nat.min_eq_right (hocc e he) :
        ∀ e ∈ insertAttrEntries a item, min (2 ^ 16 - 1) e.2 = Prod.snd e)]
    rw [insertAttrEntries, countTokens_snd_sum, List.length_map]
  refine ⟨hsum, ?_, ?_⟩
  · intro p hp
    simp only [insertAttrPostings, List.mem_map] at hp
    obtain ⟨e, _, rfl⟩ := hp
    simpa [hsum] using Nat.min_eq_right hlen
  · intro p hp
    simp only [insertAttrPostings, List.mem_map] at hp
    obtain ⟨e, _, rfl⟩ := hp
    exact ⟨Nat.min_le_left _ _, Nat.min_le_left _ _⟩

/-- Witness for C6 at a concrete small document. -/
theorem insert_occurrence_sum_witness :
    ((insertAttrPostings (fun _ => 0) "Id" none
        ⟨"Message", none, ⟨[], fun s => [⟨s⟩], []⟩⟩
        (fun _ => some (.S "hello"))).map Posting.occurrence).sum =
      (analyzeAttr ⟨"Message", none, ⟨[], fun s => [⟨s⟩], []⟩⟩
        (fun _ => some (.S "hello"))).length :=
  (insert_occurrence_sum (fun _ => 0) "Id" none
    ⟨"Message", none, ⟨[], fun s => [⟨s⟩], []⟩⟩ (fun _ => some (.S "hello"))
    (by decide) (by decide)).1

/-- An analyzer whose tokenizer emits 65536 copies of the token `a`
(e.g. a single-gram tokenizer over a 65536-character string of `a`s). -/
def bigTokenAnalyzer : Analyzer := ⟨[], fun _ => List.replicate 65536 ⟨"a"⟩, []⟩

def bigTokenAttr : Attr := ⟨"Message", none, bigTokenAnalyzer⟩

def bigTokenItem : String → Option AttrVal := fun _ => some (.S "x")

theorem bigToken_analyzeAttr :
    analyzeAttr bigTokenAttr bigTokenItem = List.replicate 65536 ⟨"a"⟩ := by
  rw [analyzeAttr,
    show extractStringValues (bigTokenItem bigTokenAttr.name) = ["x"] from rfl,
    show (["x"] : List String).flatMap (fun str => analyze bigTokenAttr.analyzer str) =
      analyze bigTokenAttr.analyzer "x" ++ [] from rfl,
    List.append_nil]
  rfl

theorem bigToken_entries :
    insertAttrEntries bigTokenAttr bigTokenItem = [("a", 65536)] := by
  rw [insertAttrEntries, bigToken_analyzeAttr, List.map_replicate]
  exact countTokens_replicate "a" 65536 (by norm_num)

theorem bigToken_postings :
    insertAttrPostings (fun _ => 0) "Id" none bigTokenAttr bigTokenItem =
      [{ attrKey := "Message", token := "a", occurrence := 65535,
         docTokenCount := 65536,
         encodedKeys := getEncodedKeys "Id" none bigTokenItem, hash := 0 }] := by
  rw [insertAttrPostings, bigToken_entries, bigToken_analyzeAttr,
    List.length_replicate]
  simp only [List.map_cons, List.map_nil]
  norm_num [attrKeyOf, bigTokenAttr]

/-- Counterexample to C6 as stated: a document whose attribute analyzes
to 65536 copies of one token gets a single posting with occurrence
capped at 65535 but documentTokenCount 65536, so the occurrence sum does
not equal the stored documentTokenCount. -/
theorem insert_occurrence_sum_counterexample :
    ¬ (∀ p ∈ insertAttrPostings (fun _ => 0) "Id" none bigTokenAttr bigTokenItem,
        p.docTokenCount =
          ((insertAttrPostings (fun _ => 0) "Id" none bigTokenAttr
            bigTokenItem).map Posting.occurrence).sum) := by
  intro h
  have hmem := h _ (by rw [bigToken_postings]; exact List.mem_singleton.mpr rfl)
  rw [bigToken_postings] at hmem
  simp at hmem

/-! ## Claim C5: the `deleted` counter of `deleteTokens`

The source increments `deleted += items.length` INSIDE the per-batch
loop (index.ts 270-280), so with more than `BATCH_SIZE` postings the
returned count is `(number of batches) × items.length` rather than the
number of postings deleted.  The sibling `insertTokens` performs the
matching increment outside its batch loop, and the only caller uses
`deleted` solely through `deleted > 0`, so the spec's reading is the
evident intent and the placement a slip. -/

/-- An index holding 26 postings (two delete batches) for one encoded
document key. -/
def overcountIndex : List Posting :=
  (List.range 26).map (fun i =>
    { attrKey := "m", token := "t", occurrence := i + 1, docTokenCount := 26,
      encodedKeys := "S1", hash := 0 })

/-- Claim C5, evaluated at the failing input: `deleteTokens` finds and
deletes all 26 postings of the document, but returns `deleted = 52`
(26 added once for each of the two batches), not 26. -/
theorem deleteTokens_overcounts :
    (deleteTokens [] "Id" none overcountIndex
      (fun _ => some (.S "1")) (fun _ => 0)).found.length = 26 ∧
    (deleteTokens [] "Id" none overcountIndex
      (fun _ => some (.S "1")) (fun _ => 0)).deleted = 52 := by
  constructor <;> decide

/-! ## Claim C3: an unchanged MODIFY yields a zero net metadata delta -/

/-- With the occurrence cap not binding, the integer occurrence sum over
one attribute's postings equals the attribute's analyzed token count. -/
theorem insertAttrPostings_occ_sum_int (keyHash : String → Nat) (pk : String)
    (sk : Option String) (a : Attr) (item : String → Option AttrVal)
    (hcap : ∀ e ∈ insertAttrEntries a item, e.2 ≤ 2 ^ 16 - 1) :
    ((insertAttrPostings keyHash pk sk a item).map
      (fun p => (p.occurrence : Int))).sum = ((analyzeAttr a item).length : Int) := by
  have h1 : (insertAttrPostings keyHash pk sk a item).map (fun p => (p.occurrence : Int)) =
      (insertAttrEntries a item).map (fun e => ((min (2 ^ 16 - 1) e.2 : Nat) : Int)) := by
    simp [insertAttrPostings, List.map_map, Function.comp]
  have h2 : (insertAttrEntries a item).map (fun e => ((min (2 ^ 16 - 1) e.2 : Nat) : Int)) =
      (insertAttrEntries a item).map (fun e => ((e.2 : Nat) : Int)) :=
    List.map_congr_left (fun e he => by rw [Nat.min_eq_right (hcap e he)])
  have h3 : (insertAttrEntries a item).map (fun e => ((e.2 : Nat) : Int)) =
      List.map (Nat.cast : Nat → Int) ((insertAttrEntries a item).map Prod.snd) := by
    rw [List.map_map]
    rfl
  have hnat : ((insertAttrEntries a item).map Prod.snd).sum = (analyzeAttr a item).length := by
    simp only [insertAttrEntries]
    rw [countTokens_snd_sum, List.length_map]
  rw [h1, h2, h3, ← Nat.cast_list_sum, hnat]

/-- Every posting of one attribute resolves back to that attribute's
name, provided the attribute key contains no `;` and short-name
resolution recovers the name. -/
theorem insertAttrPostings_resolve (ctx : List Attr) (keyHash : String → Nat)
    (pk : String) (sk : Option String) (a : Attr)
    (item : String → Option AttrVal) (hsemi : ';' ∉ (attrKeyOf a).data)
    (hres : resolveAttrName ctx (attrKeyOf a) = a.name) :
    ∀ p ∈ insertAttrPostings keyHash pk sk a item,
      resolveAttrName ctx (splitHead (postingPk p)) = a.name := by
  intro p hp
  simp only [insertAttrPostings, List.mem_map] at hp
  obtain ⟨e, _, rfl⟩ := hp
  simp only [postingPk]
  rw [splitHead_pk _ _ hsemi, hres]

/-- The occurrence sum over the combined insert postings, grouped by the
resolved attribute name, matches the per-attribute analyzed token
counts. -/
theorem sum_occ_resolved (keyHash : String → Nat) (pk : String)
    (sk : Option String) (newImage : String → Option AttrVal)
    (ctx : List Attr) (n : String) :
    ∀ attrs : List Attr,
    (∀ a ∈ attrs, ';' ∉ (attrKeyOf a).data) →
    (∀ a ∈ attrs, resolveAttrName ctx (attrKeyOf a) = a.name) →
    (∀ a ∈ attrs, ∀ e ∈ insertAttrEntries a newImage, e.2 ≤ 2 ^ 16 - 1) →
    (((attrs.flatMap (fun a => insertAttrPostings keyHash pk sk a newImage)).filter
        (fun p => resolveAttrName ctx (splitHead (postingPk p)) == n)).map
          (fun p => (p.occurrence : Int))).sum =
      ((attrs.filter (fun a => a.name == n)).map
        (fun a => ((analyzeAttr a newImage).length : Int))).sum := by
  intro attrs
  induction attrs with
  | nil => intro _ _ _; simp
  | cons a rest ih =>
    intro hsemi hres hcap
    have ih' := ih (fun x hx => hsemi x (List.mem_cons_of_mem _ hx))
      (fun x hx => hres x (List.mem_cons_of_mem _ hx))
      (fun x hx => hcap x (List.mem_cons_of_mem _ hx))
    have hres_a := insertAttrPostings_resolve ctx keyHash pk sk a newImage
      (hsemi a (List.mem_cons_self _ _)) (hres a (List.mem_cons_self _ _))
    simp only [List.flatMap_cons, List.filter_append, List.map_append,
      List.sum_append, List.filter_cons]
    rw [ih']
    by_cases hn : a.name = n
    · have hfilter : (insertAttrPostings keyHash pk sk a newImage).filter
          (fun p => resolveAttrName ctx (splitHead (postingPk p)) == n) =
          insertAttrPostings keyHash pk sk a newImage := by
        apply List.filter_eq_self.mpr
        intro p hp
        simp [hres_a p hp, hn]
      rw [hfilter, if_pos (by simpa using hn)]
      simp only [List.map_cons, List.sum_cons]
      rw [insertAttrPostings_occ_sum_int keyHash pk sk a newImage
        (hcap a (List.mem_cons_self _ _))]
    · have hfilter : (insertAttrPostings keyHash pk sk a newImage).filter
          (fun p => resolveAttrName ctx (splitHead (postingPk p)) == n) = [] := by
        apply List.filter_eq_nil_iff.mpr
        intro p hp
        simp [hres_a p hp, hn]
      rw [hfilter, if_neg (by simpa using hn)]
      simp

/-- `deleted` is positive exactly when the keys-index query found at
least one posting. -/
theorem deleteTokens_deleted_pos_iff (attrs : List Attr) (pk : String)
    (sk : Option String) (index : List Posting)
    (item : String → Option AttrVal) (rm0 : String → Int) :
    0 < (deleteTokens attrs pk sk index item rm0).deleted ↔
      index.filter (fun p => p.encodedKeys == getEncodedKeys pk sk item) ≠ [] := by
  simp only [deleteTokens]
  rw [foldl_add_const]
  constructor
  · intro h hnil
    rw [hnil] at h
    simp [chunksOf, BATCH_SIZE] at h
  · intro h
    have h1 : 0 < (index.filter
        (fun p => p.encodedKeys == getEncodedKeys pk sk item)).length :=
      List.length_pos.mpr h
    have h2 : chunksOf (index.filter
        (fun p => p.encodedKeys == getEncodedKeys pk sk item)) ≠ [] :=
      fun hc => h ((chunksOf_eq_nil_iff _).mp hc)
    have h3 := List.length_pos.mpr h2
    simpa using Nat.mul_pos h3 h1

/-- Amended claim C3: processing a single MODIFY change event whose old
image equals its new image — the index holds, for the document's key,
exactly the postings that re-insertion of the new image would write —
yields a zero net metadata delta (document-count delta 0 and every
per-attribute token delta 0), PROVIDED no distinct token of the new
image occurs more than 65535 times in its attribute's analyzed value
(the stored occurrence is capped at 2^16 − 1, so deletion recovers less
than insertion adds when the cap binds), the attribute keys contain no
`;`, and short-name resolution recovers each attribute's name (short
names unique and not shadowing other attributes' names). -/
theorem modify_unchanged_zero_delta (keyHash : String → Nat)
    (attrs : List Attr) (pk : String) (sk : Option String)
    (index : List Posting) (keys newImage : String → Option AttrVal)
    (hsemi : ∀ a ∈ attrs, ';' ∉ (attrKeyOf a).data)
    (hres : ∀ a ∈ attrs, resolveAttrName attrs (attrKeyOf a) = a.name)
    (hcap : ∀ a ∈ attrs, ∀ e ∈ insertAttrEntries a newImage, e.2 ≤ 2 ^ 16 - 1)
    (hindex : index.filter
        (fun p => p.encodedKeys == getEncodedKeys pk sk keys) =
      (insertTokens keyHash attrs pk sk newImage (fun _ => 0)).postings) :
    (processRecords keyHash attrs pk sk index
      [{ eventName := .MODIFY, keys := keys, newImage := newImage }]).count = 0 ∧
    ∀ n, (processRecords keyHash attrs pk sk index
      [{ eventName := .MODIFY, keys := keys, newImage := newImage }]).resultMap n = 0 := by
  have hIP : (insertTokens keyHash attrs pk sk newImage (fun _ => 0)).postings =
      attrs.flatMap (fun a => insertAttrPostings keyHash pk sk a newImage) := by
    obtain ⟨_, h2, _, _⟩ := foldl_insertStep keyHash pk sk newImage attrs
      { inserted := 0, resultMap := fun _ => 0, postings := [], ops := [] }
    rw [insertTokens, h2]
    simp
  simp only [processRecords, List.foldl_cons, List.foldl_nil, processRecord]
  simp only [reduceCtorEq, or_false, or_true, false_or, if_true, if_pos,
    eq_self_iff_true, true_or]
  constructor
  · -- document-count delta
    by_cases hfound : index.filter
        (fun p => p.encodedKeys == getEncodedKeys pk sk keys) = []
    · have hdel : ¬ 0 < (deleteTokens attrs pk sk index keys (fun _ => 0)).deleted := by
        rw [deleteTokens_deleted_pos_iff]
        simpa using hfound
      have hins : ¬ 0 < (insertTokens keyHash attrs pk sk newImage
          (deleteTokens attrs pk sk index keys (fun _ => 0)).resultMap).inserted := by
        rw [insertTokens_inserted_eq_length]
        have : (insertTokens keyHash attrs pk sk newImage
            (deleteTokens attrs pk sk index keys (fun _ => 0)).resultMap).postings =
            (insertTokens keyHash attrs pk sk newImage (fun _ => 0)).postings := by
          obtain ⟨_, hA, _, _⟩ := foldl_insertStep keyHash pk sk newImage attrs
            { inserted := 0, resultMap := (deleteTokens attrs pk sk index keys
                (fun _ => 0)).resultMap, postings := [], ops := [] }
          obtain ⟨_, hB, _, _⟩ := foldl_insertStep keyHash pk sk newImage attrs
            { inserted := 0, resultMap := fun _ => 0, postings := [], ops := [] }
          rw [insertTokens, hA, insertTokens, hB]
        rw [this, ← hindex, hfound]
        simp
      simp [hdel, hins]
    · have hdel : 0 < (deleteTokens attrs pk sk index keys (fun _ => 0)).deleted := by
        rw [deleteTokens_deleted_pos_iff]
        exact hfound
      have hins : 0 < (insertTokens keyHash attrs pk sk newImage
          (deleteTokens attrs pk sk index keys (fun _ => 0)).resultMap).inserted := by
        rw [insertTokens_inserted_eq_length]
        have : (insertTokens keyHash attrs pk sk newImage
            (deleteTokens attrs pk sk index keys (fun _ => 0)).resultMap).postings =
            (insertTokens keyHash attrs pk sk newImage (fun _ => 0)).postings := by
          obtain ⟨_, hA, _, _⟩ := foldl_insertStep keyHash pk sk newImage attrs
            { inserted := 0, resultMap := (deleteTokens attrs pk sk index keys
                (fun _ => 0)).resultMap, postings := [], ops := [] }
          obtain ⟨_, hB, _, _⟩ := foldl_insertStep keyHash pk sk newImage attrs
            { inserted := 0, resultMap := fun _ => 0, postings := [], ops := [] }
          rw [insertTokens, hA, insertTokens, hB]
        rw [this, ← hindex]
        exact List.length_pos.mpr hfound
      simp [hdel, hins]
  · -- per-attribute token deltas
    intro n
    have hinsRm := (foldl_insertStep keyHash pk sk newImage attrs
      { inserted := 0, resultMap := (deleteTokens attrs pk sk index keys
          (fun _ => 0)).resultMap, postings := [], ops := [] }).2.2.2 n
    have hdelRm : (deleteTokens attrs pk sk index keys (fun _ => 0)).resultMap n =
        0 - (((attrs.flatMap (fun a => insertAttrPostings keyHash pk sk a newImage)).filter
          (fun p => resolveAttrName attrs (splitHead (postingPk p)) == n)).map
            (fun p => (p.occurrence : Int))).sum := by
      simp only [deleteTokens]
      rw [foldl_deleteRmStep, hindex, hIP]
    rw [show (insertTokens keyHash attrs pk sk newImage
        (deleteTokens attrs pk sk index keys (fun _ => 0)).resultMap).resultMap n =
        (deleteTokens attrs pk sk index keys (fun _ => 0)).resultMap n +
          ((attrs.filter (fun a => a.name == n)).map
            (fun a => ((analyzeAttr a newImage).length : Int))).sum from hinsRm]
    rw [hdelRm, sum_occ_resolved keyHash pk sk newImage attrs n attrs hsemi hres hcap]
    ring

/-- Witness for C3: a one-attribute document whose index postings match
re-insertion exactly; the MODIFY leaves both the document-count delta
and the `Message` token delta at 0. -/
theorem modify_unchanged_zero_delta_witness :
    (processRecords (fun _ => 0) [⟨"Message", none, ⟨[], fun s => [⟨s⟩], []⟩⟩]
      "Id" none
      [{ attrKey := "Message", token := "hi", occurrence := 1, docTokenCount := 1,
         encodedKeys := "S1", hash := 0 }]
      [{ eventName := .MODIFY,
         keys := fun _ => some (.S "1"),
         newImage := fun n => if n = "Id" then some (.S "1") else some (.S "hi") }]).count = 0 ∧
    (processRecords (fun _ => 0) [⟨"Message", none, ⟨[], fun s => [⟨s⟩], []⟩⟩]
      "Id" none
      [{ attrKey := "Message", token := "hi", occurrence := 1, docTokenCount := 1,
         encodedKeys := "S1", hash := 0 }]
      [{ eventName := .MODIFY,
         keys := fun _ => some (.S "1"),
         newImage := fun n => if n = "Id" then some (.S "1") else some (.S "hi") }]).resultMap
      "Message" = 0 :=
  ⟨(modify_unchanged_zero_delta (fun _ => 0)
      [⟨"Message", none, ⟨[], fun s => [⟨s⟩], []⟩⟩] "Id" none
      [{ attrKey := "Message", token := "hi", occurrence := 1, docTokenCount := 1,
         encodedKeys := "S1", hash := 0 }]
      (fun _ => some (.S "1"))
      (fun n => if n = "Id" then some (.S "1") else some (.S "hi"))
      (by decide) (by decide) (by decide) (by decide)).1,
    (modify_unchanged_zero_delta (fun _ => 0)
      [⟨"Message", none, ⟨[], fun s => [⟨s⟩], []⟩⟩] "Id" none
      [{ attrKey := "Message", token := "hi", occurrence := 1, docTokenCount := 1,
         encodedKeys := "S1", hash := 0 }]
      (fun _ => some (.S "1"))
      (fun n => if n = "Id" then some (.S "1") else some (.S "hi"))
      (by decide) (by decide) (by decide) (by decide)).2 "Message"⟩

/-- The single index posting that re-inserting `bigTokenItem` would
write: occurrence capped at 65535, document token count 65536. -/
def bigTokenIndex : List Posting :=
  [{ attrKey := "Message", token := "a", occurrence := 65535,
     docTokenCount := 65536,
     encodedKeys := getEncodedKeys "Id" none bigTokenItem, hash := 0 }]

theorem bigToken_keysFilter :
    bigTokenIndex.filter
      (fun p => p.encodedKeys == getEncodedKeys "Id" none bigTokenItem) =
      bigTokenIndex := by
  simp [bigTokenIndex]

theorem bigToken_insertTokens_postings :
    (insertTokens (fun _ => 0) [bigTokenAttr] "Id" none bigTokenItem
      (fun _ => 0)).postings = bigTokenIndex :=
  calc (insertTokens (fun _ => 0) [bigTokenAttr] "Id" none bigTokenItem
      (fun _ => 0)).postings
      = [] ++ [bigTokenAttr].flatMap
          (fun a => insertAttrPostings (fun _ => 0) "Id" none a bigTokenItem) :=
        (foldl_insertStep (fun _ => 0) "Id" none bigTokenItem [bigTokenAttr]
          { inserted := 0, resultMap := fun _ => 0, postings := [],
            ops := [] }).2.1
    _ = insertAttrPostings (fun _ => 0) "Id" none bigTokenAttr bigTokenItem := by
        rw [List.nil_append, List.flatMap_cons, List.flatMap_nil, List.append_nil]
    _ = bigTokenIndex := bigToken_postings

theorem bigToken_deleteRm :
    (deleteTokens [bigTokenAttr] "Id" none bigTokenIndex bigTokenItem
      (fun _ => 0)).resultMap "Message" = -65535 := by
  simp only [deleteTokens]
  rw [bigToken_keysFilter, foldl_deleteRmStep]
  have hres1 : ∀ p ∈ bigTokenIndex,
      resolveAttrName [bigTokenAttr] (splitHead (postingPk p)) = "Message" := by
    intro p hp
    simp only [bigTokenIndex, List.mem_singleton] at hp
    subst hp
    decide
  have hff : bigTokenIndex.filter
      (fun p => resolveAttrName [bigTokenAttr] (splitHead (postingPk p)) == "Message") =
      bigTokenIndex := by
    apply List.filter_eq_self.mpr
    intro p hp
    simp [hres1 p hp]
  rw [hff]
  simp [bigTokenIndex]

theorem bigToken_insertRm :
    (insertTokens (fun _ => 0) [bigTokenAttr] "Id" none bigTokenItem
      (deleteTokens [bigTokenAttr] "Id" none bigTokenIndex bigTokenItem
        (fun _ => 0)).resultMap).resultMap "Message" = 1 := by
  simp only [insertTokens]
  rw [(foldl_insertStep (fun _ => 0) "Id" none bigTokenItem [bigTokenAttr]
    { inserted := 0,
      resultMap := (deleteTokens [bigTokenAttr] "Id" none bigTokenIndex
        bigTokenItem (fun _ => 0)).resultMap,
      postings := [], ops := [] }).2.2.2 "Message"]
  have hflt : [bigTokenAttr].filter (fun a => a.name == "Message") = [bigTokenAttr] := by
    simp [bigTokenAttr]
  rw [hflt]
  simp only [List.map_cons, List.map_nil, List.sum_cons, List.sum_nil]
  rw [bigToken_analyzeAttr, List.length_replicate, bigToken_deleteRm]
  norm_num

/-- Counterexample to C3 as stated: for a document one of whose tokens
occurs 65536 times, the index holds exactly the postings re-insertion
would write (old image = new image, same record), yet the MODIFY leaves
a net token delta of 65536 − 65535 = 1 on the attribute, not 0. -/
theorem modify_unchanged_zero_delta_counterexample :
    (bigTokenIndex.filter
        (fun p => p.encodedKeys == getEncodedKeys "Id" none bigTokenItem) =
      (insertTokens (fun _ => 0) [bigTokenAttr] "Id" none bigTokenItem
        (fun _ => 0)).postings) ∧
    (processRecords (fun _ => 0) [bigTokenAttr] "Id" none bigTokenIndex
      [{ eventName := .MODIFY, keys := bigTokenItem,
         newImage := bigTokenItem }]).resultMap "Message" = 1 := by
  refine ⟨bigToken_keysFilter.trans bigToken_insertTokens_postings.symm, ?_⟩
  simp only [processRecords, List.foldl_cons, List.foldl_nil, processRecord]
  simp only [reduceCtorEq, eq_self_iff_true, true_or, or_true, or_false, false_or,
    if_true]
  exact bigToken_insertRm

/-! ## Claim C4: per-event dispatch and the single batched metadata update -/

/-- `inserted` is the total number of distinct-token entries across the
configured attributes, independently of the incoming result map. -/
theorem insertTokens_inserted_sum (keyHash : String → Nat) (attrs : List Attr)
    (pk : String) (sk : Option String) (item : String → Option AttrVal)
    (rm0 : String → Int) :
    (insertTokens keyHash attrs pk sk item rm0).inserted =
      (attrs.map (fun a => (insertAttrEntries a item).length)).sum := by
  have h := (foldl_insertStep keyHash pk sk item attrs
    { inserted := 0, resultMap := rm0, postings := [], ops := [] }).1
  rw [insertTokens, h]
  simp

theorem insertTokens_ops_no_meta (keyHash : String → Nat) (attrs : List Attr)
    (pk : String) (sk : Option String) (item : String → Option AttrVal)
    (rm0 : String → Int) :
    (insertTokens keyHash attrs pk sk item rm0).ops.filter StoreOp.isUpdateMeta = [] := by
  have h := (foldl_insertStep keyHash pk sk item attrs
    { inserted := 0, resultMap := rm0, postings := [], ops := [] }).2.2.1
  rw [insertTokens, h]
  simp only [List.nil_append]
  rw [List.filter_eq_nil_iff]
  intro op hop
  simp only [List.mem_flatMap, List.mem_map] at hop
  obtain ⟨a, _, c, _, rfl⟩ := hop
  simp [StoreOp.isUpdateMeta]

theorem deleteTokens_ops_no_meta (attrs : List Attr) (pk : String)
    (sk : Option String) (index : List Posting)
    (item : String → Option AttrVal) (rm0 : String → Int) :
    (deleteTokens attrs pk sk index item rm0).ops.filter StoreOp.isUpdateMeta = [] := by
  simp only [deleteTokens]
  rw [List.filter_eq_nil_iff]
  intro op hop
  simp only [List.mem_cons, List.mem_map] at hop
  rcases hop with rfl | ⟨c, _, rfl⟩ <;> simp [StoreOp.isUpdateMeta]

theorem processRecord_ops_filter (keyHash : String → Nat) (attrs : List Attr)
    (pk : String) (sk : Option String) (st : EngineState) (r : StreamRecord) :
    (processRecord keyHash attrs pk sk st r).ops.filter StoreOp.isUpdateMeta =
      st.ops.filter StoreOp.isUpdateMeta := by
  by_cases hc1 : r.eventName = .MODIFY ∨ r.eventName = .REMOVE <;>
    by_cases hc2 : r.eventName = .MODIFY ∨ r.eventName = .INSERT <;>
    simp [processRecord, hc1, hc2, List.filter_append, insertTokens_ops_no_meta,
      deleteTokens_ops_no_meta]

theorem foldl_processRecord_ops_filter (keyHash : String → Nat)
    (attrs : List Attr) (pk : String) (sk : Option String)
    (records : List StreamRecord) : ∀ st : EngineState,
    ((records.foldl (processRecord keyHash attrs pk sk) st).ops).filter
      StoreOp.isUpdateMeta = st.ops.filter StoreOp.isUpdateMeta := by
  induction records with
  | nil => intro st; rfl
  | cons r rest ih =>
    intro st
    rw [List.foldl_cons, ih, processRecord_ops_filter]

/-- The delete-then-update half of an event, as the specification words
it. -/
def deleteEventStep (attrs : List Attr) (pk : String) (sk : Option String)
    (st : EngineState) (keys : String → Option AttrVal) : EngineState :=
  let dres := deleteTokens attrs pk sk st.index keys st.resultMap
  { index := dres.remaining
    count := if dres.deleted > 0 then st.count - 1 else st.count
    resultMap := dres.resultMap
    ops := st.ops ++ dres.ops }

/-- The insert half of an event, as the specification words it. -/
def insertEventStep (keyHash : String → Nat) (attrs : List Attr) (pk : String)
    (sk : Option String) (st : EngineState)
    (newImage : String → Option AttrVal) : EngineState :=
  let ires := insertTokens keyHash attrs pk sk newImage st.resultMap
  { index := applyPuts st.index ires.postings
    count := if ires.inserted > 0 then st.count + 1 else st.count
    resultMap := ires.resultMap
    ops := st.ops ++ ires.ops }

/-- The specification's three-way dispatch: INSERT runs `insertTokens`
only, REMOVE runs `deleteTokens` only, MODIFY runs `deleteTokens` then
`insertTokens`. -/
def processRecordSpec (keyHash : String → Nat) (attrs : List Attr)
    (pk : String) (sk : Option String) (st : EngineState)
    (r : StreamRecord) : EngineState :=
  match r.eventName with
  | .INSERT => insertEventStep keyHash attrs pk sk st r.newImage
  | .REMOVE => deleteEventStep attrs pk sk st r.keys
  | .MODIFY =>
    insertEventStep keyHash attrs pk sk
      (deleteEventStep attrs pk sk st r.keys) r.newImage

/-- Claim C4: `processRecords` dispatches each event by kind — INSERT
runs `insertTokens` only, REMOVE runs `deleteTokens` only, MODIFY runs
`deleteTokens` then `insertTokens`; each event changes the running
document-count delta by +1 exactly when `insertTokens` wrote at least
one posting and by −1 exactly when `deleteTokens` found (and removed) at
least one posting, netting 0 for a MODIFY that does both; and the whole
batch issues exactly one metadata-update operation, as the final store
operation, carrying the accumulated document-count and per-attribute
token-count deltas. -/
theorem processRecords_dispatch (keyHash : String → Nat) (attrs : List Attr)
    (pk : String) (sk : Option String) :
    (∀ (st : EngineState) (r : StreamRecord),
      processRecord keyHash attrs pk sk st r =
        processRecordSpec keyHash attrs pk sk st r) ∧
    (∀ (st : EngineState) (r : StreamRecord),
      (processRecord keyHash attrs pk sk st r).count - st.count =
        (if (r.eventName = .MODIFY ∨ r.eventName = .INSERT) ∧
            0 < (attrs.map (fun a => (insertAttrEntries a r.newImage).length)).sum
          then 1 else 0) -
        (if (r.eventName = .MODIFY ∨ r.eventName = .REMOVE) ∧
            st.index.filter
              (fun p => p.encodedKeys == getEncodedKeys pk sk r.keys) ≠ []
          then 1 else 0)) ∧
    (∀ (index : List Posting) (records : List StreamRecord),
      (processRecords keyHash attrs pk sk index records).ops.filter
          StoreOp.isUpdateMeta =
        [StoreOp.updateMeta
          (processRecords keyHash attrs pk sk index records).count
          (processRecords keyHash attrs pk sk index records).resultMap] ∧
      (processRecords keyHash attrs pk sk index records).ops.getLast? =
        some (StoreOp.updateMeta
          (processRecords keyHash attrs pk sk index records).count
          (processRecords keyHash attrs pk sk index records).resultMap)) := by
  refine ⟨?_, ?_, ?_⟩
  · intro st r
    cases hr : r.eventName <;>
      simp [processRecord, processRecordSpec, hr, insertEventStep, deleteEventStep]
  · intro st r
    by_cases hc1 : r.eventName = .MODIFY ∨ r.eventName = .REMOVE <;>
      by_cases hc2 : r.eventName = .MODIFY ∨ r.eventName = .INSERT <;>
      simp only [processRecord, hc1, hc2, if_true, if_false, true_and, false_and,
        and_true, and_false, iff_true, iff_false, ite_true, ite_false,
        insertTokens_inserted_sum, gt_iff_lt, deleteTokens_deleted_pos_iff] <;>
      (try split_ifs) <;> omega
  · intro index records
    constructor
    · simp only [processRecords, List.filter_append,
        foldl_processRecord_ops_filter keyHash attrs pk sk records]
      simp [StoreOp.isUpdateMeta]
    · simp only [processRecords]
      exact List.getLast?_concat _

end DynamoSearch
